import Mathlib

/-!
# Verification of the `kvs` log-structured key/value engine

Shallow embedding of `src/engines/kvs.rs` (repository raptazure/unifier).

The engine state that matters to the specification's claims is:
* the set of on-disk log segments (`<gen>.Error` files), each an append-only
  sequence of JSON-encoded `Command` records;
* the in-memory index `key ↦ CommandOffset (gen, pos, len)`;
* the writer's `current_gen` and `uncompacted` counters.

Records are modelled at record granularity: a segment is a `List Command`,
and byte positions/lengths are recovered from a concrete model `encLen` of
the number of bytes `serde_json::to_writer` emits for a command.  A byte
range decodes to a command exactly when it coincides with one record's
extent (`serde_json::from_slice` fails on partial or trailing bytes).
Environmental I/O failures (disk faults) are not modelled, but the I/O
errors the code itself produces on corrupt states are: a read of a missing
segment file and a `read_exact` of a range with too few bytes left both
surface as I/O errors, distinct from deserialization failures.  A
`panic!`/`unreachable!` in the source is modelled as a distinguished
result value.
-/

/-- The two command records of the log, `Command` in kvs.rs. -/
inductive Command : Type where
  | set (key value : String) : Command
  | remove (key : String) : Command
deriving DecidableEq, Repr

/-- Modelled from the spec: §7 error kinds.  The crate's `error.rs` is not
under `src/`; the spec lists I/O, Serialization (treated as Corruption
during `get`), and `KeyNotFound` as the error kinds surfaced to callers. -/
inductive KvsError : Type where
  | keyNotFound : KvsError
  | serde : KvsError
  | io : KvsError
deriving DecidableEq, Repr

/-- Number of bytes serde_json emits for one character inside a JSON string:
`"` and `\` become 2-byte escapes, the control characters BS HT LF FF CR
become 2-byte escapes, other control characters become 6-byte `\u00XX`
escapes, and everything else is raw UTF-8. -/
def escLen (c : Char) : Nat :=
  if c = '"' ∨ c = '\\' then 2
  else if c.toNat < 32 then
    if c.toNat = 8 ∨ c.toNat = 9 ∨ c.toNat = 10 ∨ c.toNat = 12 ∨ c.toNat = 13 then 2 else 6
  else c.utf8Size

/-- Byte length of a JSON string literal: two quotes plus escaped content. -/
def jstrLen (s : String) : Nat := 2 + (s.data.map escLen).sum

/-- Byte length of the serde_json encoding of a command
(`{"Set":{"key":K,"value":V}}` resp. `{"Remove":{"key":K}}`). -/
def encLen : Command → Nat
  | .set k v => 25 + jstrLen k + jstrLen v
  | .remove k => 19 + jstrLen k

/-- `CommandOffset` in kvs.rs: generation, byte position, byte length. -/
structure CommandOffset : Type where
  gen : Nat
  pos : Nat
  len : Nat
deriving DecidableEq, Repr

/-- One log segment's content, at record granularity. -/
abbrev Segment := List Command

/-- Total byte length of a segment (the positioned writer's `pos`). -/
def segLen (seg : Segment) : Nat := (seg.map encLen).sum

/-- Association-list lookup, modelling `HashMap::get`. -/
def lookupA {α β : Type} [DecidableEq α] (k : α) : List (α × β) → Option β
  | [] => none
  | (k', v) :: rest => if k' = k then some v else lookupA k rest

/-- Association-list insert, modelling `HashMap::insert` (replaces the value
of an existing key in place, appends a fresh key). -/
def ainsert {α β : Type} [DecidableEq α] (k : α) (v : β) : List (α × β) → List (α × β)
  | [] => [(k, v)]
  | (k', v') :: rest => if k' = k then (k, v) :: rest else (k', v') :: ainsert k v rest

/-- Association-list erase, modelling `HashMap::remove`. -/
def aerase {α β : Type} [DecidableEq α] (k : α) : List (α × β) → List (α × β)
  | [] => []
  | (k', v') :: rest => if k' = k then rest else (k', v') :: aerase k rest

/-- The in-memory index `HashMap<String, CommandOffset>`. -/
abbrev Index := List (String × CommandOffset)

/-- The on-disk state: segment files keyed by generation, kept in the
ascending-generation order in which `generations()` reports them. -/
abbrev Segs := List (Nat × Segment)

/-- Decode the byte range `[pos, pos+len)` of a segment.  It decodes exactly
when it coincides with one record's extent; `serde_json::from_slice` fails
on a strict prefix, a range with trailing bytes, or a misaligned start. -/
def recordAt : Segment → Nat → Nat → Option Command
  | [], _, _ => none
  | c :: rest, pos, len =>
    if pos = 0 then (if len = encLen c then some c else none)
    else if pos < encLen c then none
    else recordAt rest (pos - encLen c) len

/-- Read and decode the byte range an offset points at (`read_command`). -/
def decodeAt (segs : Segs) (off : CommandOffset) : Option Command :=
  match lookupA off.gen segs with
  | none => none
  | some seg => recordAt seg off.pos off.len

/-- Append one record to the segment of generation `g`. -/
def appendTo (g : Nat) (c : Command) (segs : Segs) : Segs :=
  segs.map fun p => if p.1 = g then (p.1, p.2 ++ [c]) else p

/-- The streaming replay loop of `load_index`: walk the records of segment
`g` from byte position `pos`, inserting on `Set` and erasing on `Remove`. -/
def replayGo (g : Nat) : Nat → List Command → Index → Index
  | _, [], idx => idx
  | pos, c :: rest, idx =>
    match c with
    | .set k _ => replayGo g (pos + encLen c) rest (ainsert k ⟨g, pos, pos + encLen c - pos⟩ idx)
    | .remove k => replayGo g (pos + encLen c) rest (aerase k idx)

/-- `load_index` in kvs.rs: replay one whole segment into the index. -/
def load_index (g : Nat) (seg : Segment) (idx : Index) : Index :=
  replayGo g 0 seg idx

/-- Replay every segment in the listed (ascending-generation) order. -/
def replayAll (segs : Segs) : Index :=
  segs.foldl (fun idx p => load_index p.1 p.2 idx) []

/-- Insertion into a sorted list of generation numbers. -/
def insertSorted (x : Nat) : List Nat → List Nat
  | [] => [x]
  | y :: rest => if x ≤ y then x :: y :: rest else y :: insertSorted x rest

/-- Sorting of generation numbers (`gens.sort_unstable()`). -/
def sortGens : List Nat → List Nat
  | [] => []
  | x :: rest => insertSorted x (sortGens rest)

/-- `generations` in kvs.rs: the ascending list of on-disk generations. -/
def generations (segs : Segs) : List Nat := sortGens (segs.map Prod.fst)

/-- `COMPACTION_THRESHOLD` in kvs.rs. -/
def COMPACTION_THRESHOLD : Nat := 4 * 1024 * 1024

/-- The engine state visible to the specification: `KvStore` together with
its `KvStoreWriter` (`current_gen`, `uncompacted`) and the disk. -/
structure KvStore : Type where
  segs : Segs
  index : Index
  currentGen : Nat
  uncompacted : Nat
deriving DecidableEq, Repr

/-- Result of `get`: `Ok(Option<String>)`, an error, or a `panic!`
(the source's `unreachable!()` branch), modelled as a distinct outcome. -/
inductive GetResult : Type where
  | ok : Option String → GetResult
  | err : KvsError → GetResult
  | panicked : GetResult
deriving DecidableEq, Repr

/-- `KvStore::open` replaying an existing store directory whose segment
files are `segs`: replay in ascending generation order, then open a fresh
active segment `max_gen + 1` (or `1` when the directory is empty). -/
def KvStore.openFrom (segs : Segs) : KvStore :=
  let gens := generations segs
  let index := gens.foldl (fun idx g => load_index g ((lookupA g segs).getD []) idx) []
  let currentGen := gens.getLast?.getD 0 + 1
  { segs := segs ++ [(currentGen, [])], index := index,
    currentGen := currentGen, uncompacted := 0 }

/-- `KvsEngine::get` for `KvStore`: consult the index; on a hit read and
decode the byte range.  A missing segment file makes `File::open` fail
(I/O); `read_exact` fails with an I/O error (`UnexpectedEof`) when fewer
than `len` bytes remain after `pos`; an in-file range that fails to parse
as one command surfaces the deserialization error; a decoded `Set` yields
its value; a decoded `Remove` hits the source's `unreachable!()` — a
panic, modelled as the distinct outcome `panicked`. -/
def KvStore.get (s : KvStore) (key : String) : GetResult :=
  match lookupA key s.index with
  | none => .ok none
  | some off =>
    match lookupA off.gen s.segs with
    | none => .err .io
    | some seg =>
      if segLen seg - off.pos < off.len then .err .io
      else
        match recordAt seg off.pos off.len with
        | some (.set _ v) => .ok (some v)
        | some (.remove _) => .panicked
        | none => .err .serde

/-- The per-entry loop of `KvStoreWriter::compact`: walk the index entries,
copy each referenced byte range verbatim to the compaction segment (whose
write position starts at `p`), and rewrite the entry to
`(newGen, p, len)` with `len` unchanged.  On well-formed states the copied
bytes are exactly one record; a range that is not one record is modelled
as a read failure. -/
def compactLoop (segs : Segs) (newGen : Nat) : Index → Nat → Except KvsError (Index × List Command)
  | [], _ => .ok ([], [])
  | (k, off) :: rest, p =>
    match decodeAt segs off with
    | none => .error .io
    | some c =>
      match compactLoop segs newGen rest (p + off.len) with
      | .error e => .error e
      | .ok (idx, cmds) => .ok ((k, ⟨newGen, p, off.len⟩) :: idx, c :: cmds)

/-- `KvStoreWriter::compact`: create segments `g+1` (compaction target) and
`g+2` (new active), advance `current_gen` to `g+2`, copy every live record
into `g+1` rewriting the index, then unlink every segment of generation
`≤ current_gen - 2 = g`.  Note: the source never resets `uncompacted`;
the field is carried over unchanged. -/
def KvStore.compact (s : KvStore) : Except KvsError KvStore :=
  match compactLoop s.segs (s.currentGen + 1) s.index 0 with
  | .error e => .error e
  | .ok (index, cmds) =>
    .ok { segs := (s.segs ++ [(s.currentGen + 1, cmds), (s.currentGen + 2, [])]).filter
            (fun p => ¬ p.1 ≤ s.currentGen),
          index := index,
          currentGen := s.currentGen + 2,
          uncompacted := s.uncompacted }

/-- The state `KvStoreWriter::set` reaches just before its compaction
check: the record is appended at the writer's position, the index entry is
swapped in, and a displaced entry's length is added to `uncompacted`. -/
def KvStore.setMid (s : KvStore) (key value : String) : KvStore :=
  let cmd := Command.set key value
  let pos := segLen ((lookupA s.currentGen s.segs).getD [])
  let off : CommandOffset := ⟨s.currentGen, pos, pos + encLen cmd - pos⟩
  { s with segs := appendTo s.currentGen cmd s.segs,
           index := ainsert key off s.index,
           uncompacted := s.uncompacted + ((lookupA key s.index).map CommandOffset.len).getD 0 }

/-- `KvsEngine::set` for `KvStore`: append, update index and `uncompacted`,
then compact when `uncompacted >= COMPACTION_THRESHOLD`. -/
def KvStore.set (s : KvStore) (key value : String) : Except KvsError KvStore :=
  let t := s.setMid key value
  if COMPACTION_THRESHOLD ≤ t.uncompacted then t.compact else .ok t

/-- The state `KvStoreWriter::remove` reaches just before its compaction
check, given the offset `off` the removed key had: the tombstone is
appended, the key erased, and the displaced offset's length (only — not
the tombstone's length) is added to `uncompacted`. -/
def KvStore.removeMid (s : KvStore) (key : String) (off : CommandOffset) : KvStore :=
  { s with segs := appendTo s.currentGen (Command.remove key) s.segs,
           index := aerase key s.index,
           uncompacted := s.uncompacted + off.len }

/-- `KvsEngine::remove` for `KvStore`: fail with `KeyNotFound` without
writing when the key is absent; otherwise append a tombstone, erase the
key, credit the displaced length, and compact at threshold. -/
def KvStore.remove (s : KvStore) (key : String) : Except KvsError KvStore :=
  match lookupA key s.index with
  | none => .error .keyNotFound
  | some off =>
    let t := s.removeMid key off
    if COMPACTION_THRESHOLD ≤ t.uncompacted then t.compact else .ok t

/-- One public mutating operation of the engine façade. -/
inductive Op : Type where
  | set (k v : String) : Op
  | remove (k : String) : Op
  | compact : Op
deriving DecidableEq, Repr

/-- Run one operation; a failed operation (e.g. `remove` on an absent key,
which returns before touching any state) leaves the store unchanged. -/
def exec1 (s : KvStore) : Op → KvStore
  | .set k v => match s.set k v with | .ok s' => s' | .error _ => s
  | .remove k => match s.remove k with | .ok s' => s' | .error _ => s
  | .compact => match s.compact with | .ok s' => s' | .error _ => s

/-- Run a sequence of operations from a state. -/
def execSeq (s : KvStore) (ops : List Op) : KvStore := ops.foldl exec1 s

/-- A freshly opened store on an empty directory. -/
def KvStore.open0 : KvStore := KvStore.openFrom []

/-- The key→value mapping a state denotes (what `get` observes on
well-formed states). -/
def mapping (s : KvStore) (k : String) : Option String :=
  match lookupA k s.index with
  | none => none
  | some off =>
    match decodeAt s.segs off with
    | some (.set _ v) => some v
    | _ => none

/-- Specification of the index `compactLoop` produces: every entry is
redirected to generation `g`, at consecutive positions starting at `p`,
keeping each length. -/
def rewriteIdx (g : Nat) : Index → Nat → Index
  | [], _ => []
  | (k, off) :: rest, p => (k, ⟨g, p, off.len⟩) :: rewriteIdx g rest (p + off.len)

/-- Specification of the records `compactLoop` copies into the compaction
segment: the decoded live record of each index entry, in entry order. -/
def liveCmds (segs : Segs) (entries : Index) : List Command :=
  entries.filterMap fun e => decodeAt segs e.2

/-- The state `KvStoreWriter::compact` produces on a well-formed store:
only segments `g+1` (the compacted live records) and `g+2` (the new active
segment) remain, the index is rewritten, and `uncompacted` is carried over
unchanged (the source has no reset). -/
def KvStore.compactResult (s : KvStore) : KvStore where
  segs := [(s.currentGen + 1, liveCmds s.segs s.index), (s.currentGen + 2, [])]
  index := rewriteIdx (s.currentGen + 1) s.index 0
  currentGen := s.currentGen + 2
  uncompacted := s.uncompacted

/-- Modelled from the spec (amended accounting for the `uncompacted`
counter): the bytes one operation adds — the length of the `Set` record it
displaces from the index, if any.  Tombstone lengths are never added and
`compact` adds nothing (nor resets). -/
def displacedLen (s : KvStore) : Op → Nat
  | .set k _ => ((lookupA k s.index).map CommandOffset.len).getD 0
  | .remove k => ((lookupA k s.index).map CommandOffset.len).getD 0
  | .compact => 0

/-- Total displaced bytes along a run of operations. -/
def displacedSum : KvStore → List Op → Nat
  | _, [] => 0
  | s, op :: rest => displacedLen s op + displacedSum (exec1 s op) rest

/-- Well-formedness of a store state, the invariant every reachable state
satisfies: the active segment is the last on-disk segment, generations are
strictly ascending, index keys are distinct, every index entry decodes to
a `Set` of the same key, and the index equals (pointwise) the replay of
the on-disk segments. -/
structure WF (s : KvStore) : Prop where
  split : ∃ init aseg, s.segs = init ++ [(s.currentGen, aseg)] ∧
    ∀ p ∈ init, p.1 < s.currentGen
  sorted : List.Chain' (· < ·) (s.segs.map Prod.fst)
  nodupKeys : (s.index.map Prod.fst).Nodup
  pointing : ∀ e ∈ s.index, ∃ v, decodeAt s.segs e.2 = some (Command.set e.1 v)
  agree : ∀ k, lookupA k s.index = lookupA k (replayAll s.segs)

/-! ## Basic facts about encodings and segments -/

theorem escLen_pos (c : Char) : 0 < escLen c := by
  unfold escLen
  split
  · omega
  · split
    · split <;> omega
    · exact c.utf8Size_pos

theorem encLen_pos (c : Command) : 0 < encLen c := by
  cases c <;> simp [encLen] <;> omega

theorem segLen_nil : segLen [] = 0 := rfl

theorem segLen_append (a b : Segment) : segLen (a ++ b) = segLen a + segLen b := by
  simp [segLen]

theorem segLen_singleton (c : Command) : segLen [c] = encLen c := by
  simp [segLen]

/-! ## Association-list lemmas -/

theorem lookupA_ainsert_self {α β : Type} [DecidableEq α] (k : α) (v : β)
    (l : List (α × β)) : lookupA k (ainsert k v l) = some v := by
  induction l with
  | nil => simp [ainsert, lookupA]
  | cons h t ih =>
    obtain ⟨k', v'⟩ := h
    by_cases hk : k' = k <;> simp [ainsert, lookupA, hk, ih]


theorem lookupA_ainsert_ne {α β : Type} [DecidableEq α] {x k : α} (v : β)
    (l : List (α × β)) (hne : x ≠ k) : lookupA x (ainsert k v l) = lookupA x l := by
  induction l with
  | nil =>
    have h2 : k ≠ x := fun h => hne h.symm
    simp [ainsert, lookupA, h2]
  | cons hd t ih =>
    obtain ⟨k', v'⟩ := hd
    by_cases hk : k' = k
    · subst hk
      have h2 : k' ≠ x := fun h => hne h.symm
      simp [ainsert, lookupA, h2]
    · simp [ainsert, lookupA, hk, ih]

theorem lookupA_aerase_ne {α β : Type} [DecidableEq α] {x k : α}
    (l : List (α × β)) (hne : x ≠ k) : lookupA x (aerase k l) = lookupA x l := by
  induction l with
  | nil => simp [aerase]
  | cons hd t ih =>
    obtain ⟨k', v'⟩ := hd
    by_cases hk : k' = k
    · subst hk
      have h2 : k' ≠ x := fun h => hne h.symm
      simp [aerase, lookupA, h2]
    · simp [aerase, lookupA, hk, ih]

theorem lookupA_eq_none_iff {α β : Type} [DecidableEq α] (k : α) (l : List (α × β)) :
    lookupA k l = none ↔ k ∉ l.map Prod.fst := by
  induction l with
  | nil => simp [lookupA]
  | cons hd t ih =>
    obtain ⟨k', v'⟩ := hd
    by_cases hk : k' = k
    · subst hk
      simp [lookupA]
    · have h2 : ¬ k = k' := fun h => hk h.symm
      simp [lookupA, hk, ih, h2]

theorem lookupA_aerase_self {α β : Type} [DecidableEq α] (k : α)
    (l : List (α × β)) (hnd : (l.map Prod.fst).Nodup) :
    lookupA k (aerase k l) = none := by
  induction l with
  | nil => simp [aerase, lookupA]
  | cons hd t ih =>
    obtain ⟨k', v'⟩ := hd
    simp only [List.map_cons, List.nodup_cons] at hnd
    by_cases hk : k' = k
    · subst hk
      simpa [aerase, lookupA_eq_none_iff] using hnd.1
    · simp [aerase, lookupA, hk, ih hnd.2]

theorem aerase_of_lookupA_none {α β : Type} [DecidableEq α] {k : α}
    {l : List (α × β)} (h : lookupA k l = none) : aerase k l = l := by
  induction l with
  | nil => simp [aerase]
  | cons hd t ih =>
    obtain ⟨k', v'⟩ := hd
    by_cases hk : k' = k
    · simp [lookupA, hk] at h
    · simp only [lookupA, if_neg hk] at h
      simp [aerase, hk, ih h]

theorem ainsert_of_lookupA_none {α β : Type} [DecidableEq α] {k : α} (v : β)
    {l : List (α × β)} (h : lookupA k l = none) : ainsert k v l = l ++ [(k, v)] := by
  induction l with
  | nil => simp [ainsert]
  | cons hd t ih =>
    obtain ⟨k', v'⟩ := hd
    by_cases hk : k' = k
    · simp [lookupA, hk] at h
    · simp only [lookupA, if_neg hk] at h
      simp [ainsert, hk, ih h]

theorem lookupA_mem {α β : Type} [DecidableEq α] {k : α} {v : β}
    {l : List (α × β)} (h : lookupA k l = some v) : (k, v) ∈ l := by
  induction l with
  | nil => simp [lookupA] at h
  | cons hd t ih =>
    obtain ⟨k', v'⟩ := hd
    by_cases hk : k' = k
    · subst hk
      simp [lookupA] at h
      simp [h]
    · simp only [lookupA, if_neg hk] at h
      simp [ih h]

theorem mem_lookupA {α β : Type} [DecidableEq α] {k : α} {v : β}
    {l : List (α × β)} (h : (k, v) ∈ l) (hnd : (l.map Prod.fst).Nodup) :
    lookupA k l = some v := by
  induction l with
  | nil => simp at h
  | cons hd t ih =>
    obtain ⟨k', v'⟩ := hd
    simp only [List.map_cons, List.nodup_cons] at hnd
    rcases List.mem_cons.mp h with heq | hmem
    · injection heq with h1 h2
      subst h1
      subst h2
      simp [lookupA]
    · have hk : k' ≠ k := by
        rintro rfl
        exact hnd.1 (List.mem_map.mpr ⟨(k', v), hmem, rfl⟩)
      simp [lookupA, hk, ih hmem hnd.2]

theorem lookupA_append_left {α β : Type} [DecidableEq α] {k : α} {v : β}
    {l₁ : List (α × β)} (l₂ : List (α × β)) (h : lookupA k l₁ = some v) :
    lookupA k (l₁ ++ l₂) = some v := by
  induction l₁ with
  | nil => simp [lookupA] at h
  | cons hd t ih =>
    obtain ⟨k', v'⟩ := hd
    by_cases hk : k' = k
    · simp_all [lookupA]
    · simp only [lookupA, if_neg hk] at h
      simp [lookupA, hk, ih h]

theorem lookupA_append_right {α β : Type} [DecidableEq α] {k : α}
    {l₁ : List (α × β)} (l₂ : List (α × β)) (h : lookupA k l₁ = none) :
    lookupA k (l₁ ++ l₂) = lookupA k l₂ := by
  induction l₁ with
  | nil => simp
  | cons hd t ih =>
    obtain ⟨k', v'⟩ := hd
    by_cases hk : k' = k
    · simp [lookupA, hk] at h
    · simp only [lookupA, if_neg hk] at h
      simp [lookupA, hk, ih h]

theorem mem_ainsert {α β : Type} [DecidableEq α] {p : α × β} {k : α} {v : β}
    {l : List (α × β)} (h : p ∈ ainsert k v l) : p = (k, v) ∨ p ∈ l := by
  induction l with
  | nil =>
    left
    simpa [ainsert] using h
  | cons hd t ih =>
    obtain ⟨k', v'⟩ := hd
    by_cases hk : k' = k
    · subst hk
      rcases List.mem_cons.mp (by simpa [ainsert] using h) with heq | hmem
      · left; exact heq
      · right; exact List.mem_cons_of_mem _ hmem
    · rcases List.mem_cons.mp (by simpa [ainsert, hk] using h) with heq | hmem
      · right; simp [heq]
      · rcases ih hmem with h1 | h2
        · left; exact h1
        · right; exact List.mem_cons_of_mem _ h2

theorem mem_aerase {α β : Type} [DecidableEq α] {p : α × β} {k : α}
    {l : List (α × β)} (h : p ∈ aerase k l) : p ∈ l := by
  induction l with
  | nil => simpa [aerase] using h
  | cons hd t ih =>
    obtain ⟨k', v'⟩ := hd
    by_cases hk : k' = k
    · exact List.mem_cons_of_mem _ (by simpa [aerase, hk] using h)
    · rcases List.mem_cons.mp (by simpa [aerase, hk] using h) with heq | hmem
      · simp [heq]
      · exact List.mem_cons_of_mem _ (ih hmem)

theorem mem_map_fst_ainsert {α β : Type} [DecidableEq α] {x k : α} {v : β}
    {l : List (α × β)} (h : x ∈ (ainsert k v l).map Prod.fst) :
    x = k ∨ x ∈ l.map Prod.fst := by
  rcases List.mem_map.mp h with ⟨p, hp, hfst⟩
  rcases mem_ainsert hp with h1 | h2
  · left; rw [← hfst, h1]
  · right; exact hfst ▸ List.mem_map.mpr ⟨p, h2, rfl⟩

theorem nodup_ainsert {α β : Type} [DecidableEq α] (k : α) (v : β)
    {l : List (α × β)} (hnd : (l.map Prod.fst).Nodup) :
    ((ainsert k v l).map Prod.fst).Nodup := by
  induction l with
  | nil => simp [ainsert]
  | cons hd t ih =>
    obtain ⟨k', v'⟩ := hd
    simp only [List.map_cons, List.nodup_cons] at hnd
    by_cases hk : k' = k
    · subst hk
      have he : ainsert k' v ((k', v') :: t) = (k', v) :: t := by simp [ainsert]
      rw [he, List.map_cons, List.nodup_cons]
      exact ⟨hnd.1, hnd.2⟩
    · simp only [ainsert, if_neg hk, List.map_cons, List.nodup_cons]
      refine ⟨fun hm => ?_, ih hnd.2⟩
      rcases mem_map_fst_ainsert hm with h1 | h2
      · exact hk h1
      · exact hnd.1 h2

theorem nodup_aerase {α β : Type} [DecidableEq α] (k : α)
    {l : List (α × β)} (hnd : (l.map Prod.fst).Nodup) :
    ((aerase k l).map Prod.fst).Nodup := by
  induction l with
  | nil => simp [aerase]
  | cons hd t ih =>
    obtain ⟨k', v'⟩ := hd
    simp only [List.map_cons, List.nodup_cons] at hnd
    by_cases hk : k' = k
    · simp only [aerase, if_pos hk]
      exact hnd.2
    · simp only [aerase, if_neg hk, List.map_cons, List.nodup_cons]
      refine ⟨fun hm => ?_, ih hnd.2⟩
      rcases List.mem_map.mp hm with ⟨p, hp, hfst⟩
      exact hnd.1 (hfst ▸ List.mem_map.mpr ⟨p, mem_aerase hp, rfl⟩)

/-! ## Record decoding lemmas -/

theorem recordAt_len {seg : Segment} {pos len : Nat} {c : Command}
    (h : recordAt seg pos len = some c) : len = encLen c := by
  induction seg generalizing pos with
  | nil => simp [recordAt] at h
  | cons hd t ih =>
    by_cases hp : pos = 0
    · subst hp
      simp only [recordAt, if_pos rfl] at h
      by_cases hl : len = encLen hd
      · rw [if_pos hl] at h
        injection h with h
        subst h
        exact hl
      · rw [if_neg hl] at h
        exact absurd h (by simp)
    · by_cases hlt : pos < encLen hd
      · simp [recordAt, hp, hlt] at h
      · simp only [recordAt, if_neg hp, if_neg hlt] at h
        exact ih h

theorem recordAt_append_of_some {seg : Segment} {pos len : Nat} {c : Command}
    (l : Segment) (h : recordAt seg pos len = some c) :
    recordAt (seg ++ l) pos len = some c := by
  induction seg generalizing pos with
  | nil => simp [recordAt] at h
  | cons hd t ih =>
    by_cases hp : pos = 0
    · subst hp
      simp only [recordAt, if_pos rfl] at h ⊢
      exact h
    · by_cases hlt : pos < encLen hd
      · simp [recordAt, hp, hlt] at h
      · simp only [recordAt, if_neg hp, if_neg hlt] at h ⊢
        exact ih h

theorem recordAt_le_segLen {seg : Segment} {pos len : Nat} {c : Command}
    (h : recordAt seg pos len = some c) : pos + len ≤ segLen seg := by
  induction seg generalizing pos with
  | nil => simp [recordAt] at h
  | cons hd t ih =>
    have hcons : segLen (hd :: t) = encLen hd + segLen t := by simp [segLen]
    by_cases hp : pos = 0
    · subst hp
      simp only [recordAt, if_pos rfl] at h
      by_cases hl : len = encLen hd
      · rw [hcons, hl]
        omega
      · rw [if_neg hl] at h
        exact absurd h (by simp)
    · by_cases hlt : pos < encLen hd
      · simp [recordAt, hp, hlt] at h
      · simp only [recordAt, if_neg hp, if_neg hlt] at h
        have := ih h
        rw [hcons]
        omega

theorem recordAt_boundary (pre : Segment) (c : Command) (rest : Segment) :
    recordAt (pre ++ c :: rest) (segLen pre) (encLen c) = some c := by
  induction pre with
  | nil => simp [recordAt, segLen]
  | cons hd t ih =>
    have hpos : segLen (hd :: t) = encLen hd + segLen t := by
      simp [segLen]
    have hne : segLen (hd :: t) ≠ 0 := by
      have := encLen_pos hd
      omega
    have hnlt : ¬ segLen (hd :: t) < encLen hd := by omega
    simp only [List.cons_append, recordAt, if_neg hne, if_neg hnlt]
    have : segLen (hd :: t) - encLen hd = segLen t := by omega
    rw [this]
    exact ih

/-! ## appendTo lemmas -/

theorem appendTo_map_fst (g : Nat) (c : Command) (segs : Segs) :
    (appendTo g c segs).map Prod.fst = segs.map Prod.fst := by
  induction segs with
  | nil => rfl
  | cons hd t ih =>
    obtain ⟨g', seg⟩ := hd
    by_cases hg : g' = g <;> simp [appendTo, hg] <;> simpa [appendTo] using ih

theorem appendTo_of_not_mem (g : Nat) (c : Command) {segs : Segs}
    (h : ∀ p ∈ segs, p.1 ≠ g) : appendTo g c segs = segs := by
  induction segs with
  | nil => rfl
  | cons hd t ih =>
    obtain ⟨g', seg⟩ := hd
    have h1 : g' ≠ g := h (g', seg) (by simp)
    have h2 : ∀ p ∈ t, p.1 ≠ g := fun p hp => h p (List.mem_cons_of_mem _ hp)
    simp [appendTo, h1]
    simpa [appendTo] using ih h2

theorem appendTo_append (g : Nat) (c : Command) (l₁ l₂ : Segs) :
    appendTo g c (l₁ ++ l₂) = appendTo g c l₁ ++ appendTo g c l₂ := by
  simp [appendTo]

theorem appendTo_cons (g : Nat) (c : Command) (g₀ : Nat) (seg : Segment) (t : Segs) :
    appendTo g c ((g₀, seg) :: t) =
      (if g₀ = g then (g₀, seg ++ [c]) else (g₀, seg)) :: appendTo g c t := by
  by_cases hg : g₀ = g <;> simp [appendTo, hg]

theorem lookupA_cons {α β : Type} [DecidableEq α] (k k' : α) (v : β) (t : List (α × β)) :
    lookupA k' ((k, v) :: t) = if k = k' then some v else lookupA k' t := rfl

theorem lookupA_appendTo_ne {g' g : Nat} (c : Command) (segs : Segs) (hne : g' ≠ g) :
    lookupA g' (appendTo g c segs) = lookupA g' segs := by
  induction segs with
  | nil => rfl
  | cons hd t ih =>
    obtain ⟨g₀, seg⟩ := hd
    rw [appendTo_cons]
    by_cases hg : g₀ = g
    · subst hg
      have h2 : g₀ ≠ g' := fun h => hne h.symm
      rw [if_pos rfl, lookupA_cons, lookupA_cons, if_neg h2, if_neg h2, ih]
    · rw [if_neg hg, lookupA_cons, lookupA_cons]
      by_cases hx : g₀ = g'
      · rw [if_pos hx, if_pos hx]
      · rw [if_neg hx, if_neg hx, ih]

theorem lookupA_appendTo_self (g : Nat) (c : Command) (segs : Segs) :
    lookupA g (appendTo g c segs) = (lookupA g segs).map (fun seg => seg ++ [c]) := by
  induction segs with
  | nil => rfl
  | cons hd t ih =>
    obtain ⟨g₀, seg⟩ := hd
    rw [appendTo_cons]
    by_cases hg : g₀ = g
    · subst hg
      rw [if_pos rfl, lookupA_cons, lookupA_cons, if_pos rfl, if_pos rfl]
      rfl
    · rw [if_neg hg, lookupA_cons, lookupA_cons, if_neg hg, if_neg hg, ih]

theorem decodeAt_appendTo_of_some {segs : Segs} {off : CommandOffset} {c₀ : Command}
    (g : Nat) (c : Command) (h : decodeAt segs off = some c₀) :
    decodeAt (appendTo g c segs) off = some c₀ := by
  unfold decodeAt at h ⊢
  cases hseg : lookupA off.gen segs with
  | none => rw [hseg] at h; exact absurd h (by simp)
  | some seg =>
    rw [hseg] at h
    by_cases hg : off.gen = g
    · subst hg
      rw [lookupA_appendTo_self, hseg]
      simpa using recordAt_append_of_some [c] h
    · rw [lookupA_appendTo_ne c segs hg, hseg]
      exact h

/-! ## Replay lemmas -/

theorem replayGo_nil (g : Nat) (pos : Nat) (idx : Index) :
    replayGo g pos [] idx = idx := rfl

theorem replayGo_cons_set (g pos : Nat) (k v : String) (rest : List Command) (idx : Index) :
    replayGo g pos (Command.set k v :: rest) idx =
      replayGo g (pos + encLen (Command.set k v)) rest
        (ainsert k ⟨g, pos, encLen (Command.set k v)⟩ idx) := by
  simp [replayGo]

theorem replayGo_cons_remove (g pos : Nat) (k : String) (rest : List Command) (idx : Index) :
    replayGo g pos (Command.remove k :: rest) idx =
      replayGo g (pos + encLen (Command.remove k)) rest (aerase k idx) := by
  simp [replayGo]

theorem replayGo_append (g pos : Nat) (cmds : List Command) (c : Command) (idx : Index) :
    replayGo g pos (cmds ++ [c]) idx =
      match c with
      | .set k _ => ainsert k ⟨g, pos + segLen cmds, encLen c⟩ (replayGo g pos cmds idx)
      | .remove k => aerase k (replayGo g pos cmds idx) := by
  induction cmds generalizing pos idx with
  | nil =>
    cases c with
    | set k v => simp [replayGo, segLen]
    | remove k => simp [replayGo]
  | cons hd t ih =>
    have hlen : pos + encLen hd + segLen t = pos + segLen (hd :: t) := by
      simp [segLen]
      omega
    cases hd with
    | set k v =>
      simp only [List.cons_append, replayGo_cons_set, ih, hlen]
    | remove k =>
      simp only [List.cons_append, replayGo_cons_remove, ih, hlen]

theorem replayGo_nodup (g pos : Nat) (cmds : List Command) {idx : Index}
    (hnd : (idx.map Prod.fst).Nodup) :
    ((replayGo g pos cmds idx).map Prod.fst).Nodup := by
  induction cmds generalizing pos idx with
  | nil => exact hnd
  | cons hd t ih =>
    cases hd with
    | set k v =>
      rw [replayGo_cons_set]
      exact ih _ (nodup_ainsert _ _ hnd)
    | remove k =>
      rw [replayGo_cons_remove]
      exact ih _ (nodup_aerase _ hnd)

theorem replayAll_nil : replayAll [] = [] := rfl

theorem replayAll_concat (segs : Segs) (g : Nat) (seg : Segment) :
    replayAll (segs ++ [(g, seg)]) = load_index g seg (replayAll segs) := by
  simp [replayAll, List.foldl_append]

theorem replayAll_nodup (segs : Segs) : ((replayAll segs).map Prod.fst).Nodup := by
  suffices h : ∀ (l : Segs) (idx : Index), (idx.map Prod.fst).Nodup →
      ((l.foldl (fun idx p => load_index p.1 p.2 idx) idx).map Prod.fst).Nodup by
    exact h segs [] (by simp)
  intro l
  induction l with
  | nil => exact fun idx h => h
  | cons hd t ih =>
    intro idx hnd
    exact ih _ (replayGo_nodup _ _ _ hnd)

/-! ## Sorting lemmas -/

theorem insertSorted_of_le {x y : Nat} (rest : List Nat) (h : x ≤ y) :
    insertSorted x (y :: rest) = x :: y :: rest := by
  simp [insertSorted, h]

theorem sortGens_eq_self {l : List Nat} (h : List.Chain' (· < ·) l) :
    sortGens l = l := by
  induction l with
  | nil => rfl
  | cons x t ih =>
    have ht : List.Chain' (· < ·) t := h.tail
    rw [sortGens, ih ht]
    cases t with
    | nil => rfl
    | cons y rest =>
      have hxy : x < y := List.chain'_cons.mp h |>.1
      exact insertSorted_of_le rest hxy.le

/-! ## compactLoop: success and its outputs -/

theorem compactLoop_eq (segs : Segs) (g : Nat) (entries : Index) (p : Nat)
    (h : ∀ e ∈ entries, (decodeAt segs e.2).isSome) :
    compactLoop segs g entries p = .ok (rewriteIdx g entries p, liveCmds segs entries) := by
  induction entries generalizing p with
  | nil => rfl
  | cons hd rest ih =>
    obtain ⟨k, off⟩ := hd
    have hh : (decodeAt segs off).isSome := h (k, off) (by simp)
    obtain ⟨c, hc⟩ := Option.isSome_iff_exists.mp hh
    have hrest : ∀ e ∈ rest, (decodeAt segs e.2).isSome :=
      fun e he => h e (List.mem_cons_of_mem _ he)
    rw [compactLoop, hc, ih (p + off.len) hrest]
    simp [rewriteIdx, liveCmds, hc]

theorem rewriteIdx_map_fst (g : Nat) (entries : Index) (p : Nat) :
    (rewriteIdx g entries p).map Prod.fst = entries.map Prod.fst := by
  induction entries generalizing p with
  | nil => rfl
  | cons hd rest ih =>
    obtain ⟨k, off⟩ := hd
    simp [rewriteIdx, ih]

theorem decodeAt_len {segs : Segs} {off : CommandOffset} {c : Command}
    (h : decodeAt segs off = some c) : off.len = encLen c := by
  unfold decodeAt at h
  cases hseg : lookupA off.gen segs with
  | none => rw [hseg] at h; exact absurd h (by simp)
  | some seg =>
    rw [hseg] at h
    exact recordAt_len h

/-- Key lemma for the rewritten index: looking a key up in `rewriteIdx`
gives the entry at the cumulative position, pointing (inside the compacted
records, laid out after an arbitrary prefix `pre` of matching byte length)
at the same decoded command as the old entry. -/
theorem rewriteIdx_lookup (segs : Segs) (g : Nat) (x : String) :
    ∀ (entries : Index) (p : Nat) (pre : Segment),
    (∀ e ∈ entries, ∃ v, decodeAt segs e.2 = some (Command.set e.1 v)) →
    segLen pre = p →
    (lookupA x entries = none → lookupA x (rewriteIdx g entries p) = none) ∧
    (∀ off, lookupA x entries = some off →
      ∃ v off', decodeAt segs off = some (Command.set x v) ∧
        lookupA x (rewriteIdx g entries p) = some off' ∧ off'.gen = g ∧
        off'.len = off.len ∧
        recordAt (pre ++ liveCmds segs entries) off'.pos off'.len =
          some (Command.set x v)) := by
  intro entries
  induction entries with
  | nil =>
    intro p pre hpt hpre
    exact ⟨fun _ => rfl, fun off hoff => by simp [lookupA] at hoff⟩
  | cons hd rest ih =>
    intro p pre hpt hpre
    obtain ⟨k, off₀⟩ := hd
    obtain ⟨v₀, hv₀⟩ := hpt (k, off₀) (by simp)
    have hlen₀ : off₀.len = encLen (Command.set k v₀) := decodeAt_len hv₀
    have hlive : liveCmds segs ((k, off₀) :: rest) =
        Command.set k v₀ :: liveCmds segs rest := by
      simp [liveCmds, hv₀]
    have hrestpt : ∀ e ∈ rest, ∃ v, decodeAt segs e.2 = some (Command.set e.1 v) :=
      fun e he => hpt e (List.mem_cons_of_mem _ he)
    have hpre' : segLen (pre ++ [Command.set k v₀]) = p + off₀.len := by
      rw [segLen_append, segLen_singleton, hpre, hlen₀]
    have hrw : rewriteIdx g ((k, off₀) :: rest) p =
        (k, ⟨g, p, off₀.len⟩) :: rewriteIdx g rest (p + off₀.len) := rfl
    have hassoc : pre ++ liveCmds segs ((k, off₀) :: rest) =
        (pre ++ [Command.set k v₀]) ++ liveCmds segs rest := by
      rw [hlive]
      simp
    obtain ⟨ihn, ihs⟩ := ih (p + off₀.len) (pre ++ [Command.set k v₀]) hrestpt hpre'
    by_cases hk : k = x
    · subst hk
      constructor
      · intro hnone
        simp [lookupA] at hnone
      · intro off hoff
        rw [lookupA_cons, if_pos rfl] at hoff
        injection hoff with hoff
        subst hoff
        refine ⟨v₀, ⟨g, p, off₀.len⟩, hv₀, ?_, rfl, rfl, ?_⟩
        · rw [hrw, lookupA_cons, if_pos rfl]
        · rw [hlive, ← hpre, hlen₀]
          exact recordAt_boundary pre (Command.set k v₀) (liveCmds segs rest)
    · constructor
      · intro hnone
        rw [lookupA_cons, if_neg hk] at hnone
        rw [hrw, lookupA_cons, if_neg hk]
        exact ihn hnone
      · intro off hoff
        rw [lookupA_cons, if_neg hk] at hoff
        obtain ⟨v, off', hdec, hlk, hgen, hlen, hrec⟩ := ihs off hoff
        refine ⟨v, off', hdec, ?_, hgen, hlen, ?_⟩
        · rw [hrw, lookupA_cons, if_neg hk]
          exact hlk
        · rw [hassoc]
          exact hrec

/-- Every entry of the rewritten index decodes, inside the compacted
segment, to a `Set` of its own key. -/
theorem rewriteIdx_pointing (segs : Segs) (g : Nat) :
    ∀ (entries : Index) (p : Nat) (pre : Segment),
    (∀ e ∈ entries, ∃ v, decodeAt segs e.2 = some (Command.set e.1 v)) →
    segLen pre = p →
    ∀ e ∈ rewriteIdx g entries p, e.2.gen = g ∧
      ∃ v, recordAt (pre ++ liveCmds segs entries) e.2.pos e.2.len =
        some (Command.set e.1 v) := by
  intro entries
  induction entries with
  | nil =>
    intro p pre hpt hpre e he
    simp [rewriteIdx] at he
  | cons hd rest ih =>
    intro p pre hpt hpre e he
    obtain ⟨k, off₀⟩ := hd
    obtain ⟨v₀, hv₀⟩ := hpt (k, off₀) (by simp)
    have hlen₀ : off₀.len = encLen (Command.set k v₀) := decodeAt_len hv₀
    have hlive : liveCmds segs ((k, off₀) :: rest) =
        Command.set k v₀ :: liveCmds segs rest := by
      simp [liveCmds, hv₀]
    have hrestpt : ∀ e ∈ rest, ∃ v, decodeAt segs e.2 = some (Command.set e.1 v) :=
      fun e he => hpt e (List.mem_cons_of_mem _ he)
    have hpre' : segLen (pre ++ [Command.set k v₀]) = p + off₀.len := by
      rw [segLen_append, segLen_singleton, hpre, hlen₀]
    rcases List.mem_cons.mp he with heq | hmem
    · subst heq
      refine ⟨rfl, v₀, ?_⟩
      rw [hlive, ← hpre, hlen₀]
      exact recordAt_boundary pre (Command.set k v₀) (liveCmds segs rest)
    · obtain ⟨hgen, v, hrec⟩ := ih (p + off₀.len) (pre ++ [Command.set k v₀])
        hrestpt hpre' e hmem
      refine ⟨hgen, v, ?_⟩
      rw [hlive]
      have hassoc : pre ++ Command.set k v₀ :: liveCmds segs rest =
          (pre ++ [Command.set k v₀]) ++ liveCmds segs rest := by simp
      rw [hassoc]
      exact hrec

/-- Replaying the compacted segment from an index that is fresh for all
entry keys reproduces exactly the rewritten index. -/
theorem replay_rewriteIdx (segs : Segs) (g : Nat) :
    ∀ (entries : Index) (p : Nat) (acc : Index),
    (entries.map Prod.fst).Nodup →
    (∀ e ∈ entries, ∃ v, decodeAt segs e.2 = some (Command.set e.1 v)) →
    (∀ e ∈ entries, lookupA e.1 acc = none) →
    replayGo g p (liveCmds segs entries) acc = acc ++ rewriteIdx g entries p := by
  intro entries
  induction entries with
  | nil =>
    intro p acc _ _ _
    simp [liveCmds, rewriteIdx, replayGo_nil]
  | cons hd rest ih =>
    intro p acc hnd hpt hfresh
    obtain ⟨k, off₀⟩ := hd
    obtain ⟨v₀, hv₀⟩ := hpt (k, off₀) (by simp)
    have hlen₀ : off₀.len = encLen (Command.set k v₀) := decodeAt_len hv₀
    have hlive : liveCmds segs ((k, off₀) :: rest) =
        Command.set k v₀ :: liveCmds segs rest := by
      simp [liveCmds, hv₀]
    simp only [List.map_cons, List.nodup_cons] at hnd
    have hrestpt : ∀ e ∈ rest, ∃ v, decodeAt segs e.2 = some (Command.set e.1 v) :=
      fun e he => hpt e (List.mem_cons_of_mem _ he)
    have hkfresh : lookupA k acc = none := hfresh (k, off₀) (by simp)
    have hins : ainsert k (⟨g, p, encLen (Command.set k v₀)⟩ : CommandOffset) acc =
        acc ++ [(k, ⟨g, p, encLen (Command.set k v₀)⟩)] :=
      ainsert_of_lookupA_none _ hkfresh
    have hfresh' : ∀ e ∈ rest,
        lookupA e.1 (acc ++ [(k, (⟨g, p, encLen (Command.set k v₀)⟩ : CommandOffset))]) = none := by
      intro e he
      have h1 : lookupA e.1 acc = none := hfresh e (List.mem_cons_of_mem _ he)
      have h2 : k ≠ e.1 := by
        rintro rfl
        exact hnd.1 (List.mem_map.mpr ⟨e, he, rfl⟩)
      rw [lookupA_append_right _ h1, lookupA_cons, if_neg h2]
      rfl
    rw [hlive, replayGo_cons_set, hins, ih (p + encLen (Command.set k v₀)) _ hnd.2 hrestpt hfresh']
    rw [List.append_assoc]
    have : rewriteIdx g ((k, off₀) :: rest) p =
        (k, ⟨g, p, off₀.len⟩) :: rewriteIdx g rest (p + off₀.len) := rfl
    rw [this, hlen₀]
    rfl

/-! ## Well-formedness: helper lemmas -/

theorem lookupA_split {init : Segs} {g : Nat} {aseg : Segment}
    (h : ∀ p ∈ init, p.1 < g) : lookupA g (init ++ [(g, aseg)]) = some aseg := by
  have hnone : lookupA g init = none := by
    rw [lookupA_eq_none_iff]
    intro hmem
    rcases List.mem_map.mp hmem with ⟨p, hp, hfst⟩
    have := h p hp
    omega
  rw [lookupA_append_right _ hnone, lookupA_cons, if_pos rfl]

theorem appendTo_split {init : Segs} {g : Nat} {aseg : Segment} (c : Command)
    (hlt : ∀ p ∈ init, p.1 < g) :
    appendTo g c (init ++ [(g, aseg)]) = init ++ [(g, aseg ++ [c])] := by
  have hne : ∀ p ∈ init, p.1 ≠ g := fun p hp => Nat.ne_of_lt (hlt p hp)
  rw [appendTo_append, appendTo_of_not_mem _ _ hne, appendTo_cons, if_pos rfl]
  rfl

theorem replayAll_appendTo {init : Segs} {g : Nat} {aseg : Segment} (c : Command)
    (hlt : ∀ p ∈ init, p.1 < g) :
    replayAll (appendTo g c (init ++ [(g, aseg)])) =
      match c with
      | .set k _ => ainsert k ⟨g, segLen aseg, encLen c⟩ (replayAll (init ++ [(g, aseg)]))
      | .remove k => aerase k (replayAll (init ++ [(g, aseg)])) := by
  rw [appendTo_split c hlt, replayAll_concat, replayAll_concat]
  unfold load_index
  rw [replayGo_append]
  cases c <;> simp

theorem mapping_of_lookup_some {s : KvStore} {x : String} {off : CommandOffset}
    {v : String} (hlk : lookupA x s.index = some off)
    (hdec : decodeAt s.segs off = some (Command.set x v)) :
    mapping s x = some v := by
  simp only [mapping, hlk, hdec]

theorem mapping_of_lookup_none {s : KvStore} {x : String}
    (hlk : lookupA x s.index = none) : mapping s x = none := by
  simp only [mapping, hlk]

/-! ## Preservation: `setMid` -/

theorem setMid_eq (s : KvStore) (k v : String) {aseg : Segment}
    (hact : lookupA s.currentGen s.segs = some aseg) :
    s.setMid k v = { s with
      segs := appendTo s.currentGen (Command.set k v) s.segs,
      index := ainsert k ⟨s.currentGen, segLen aseg, encLen (Command.set k v)⟩ s.index,
      uncompacted :=
        s.uncompacted + ((lookupA k s.index).map CommandOffset.len).getD 0 } := by
  unfold KvStore.setMid
  rw [hact]
  simp

theorem WF_setMid {s : KvStore} (k v : String) (hWF : WF s) :
    WF (s.setMid k v) ∧
    (∀ x, mapping (s.setMid k v) x = if x = k then some v else mapping s x) ∧
    (s.setMid k v).uncompacted =
      s.uncompacted + ((lookupA k s.index).map CommandOffset.len).getD 0 ∧
    (s.setMid k v).currentGen = s.currentGen := by
  obtain ⟨init, aseg, hsegs, hlt⟩ := hWF.split
  have hact : lookupA s.currentGen s.segs = some aseg := by
    rw [hsegs]
    exact lookupA_split hlt
  set cmd := Command.set k v with hcmd
  set off : CommandOffset := ⟨s.currentGen, segLen aseg, encLen cmd⟩ with hoff
  have hmid := setMid_eq s k v hact
  have hsegs' : (s.setMid k v).segs = init ++ [(s.currentGen, aseg ++ [cmd])] := by
    rw [hmid]
    show appendTo s.currentGen cmd s.segs = _
    rw [hsegs]
    exact appendTo_split cmd hlt
  have hdecnew : decodeAt (s.setMid k v).segs off = some cmd := by
    unfold decodeAt
    rw [hoff]
    show (match lookupA s.currentGen (s.setMid k v).segs with
      | none => none
      | some seg => recordAt seg (segLen aseg) (encLen cmd)) = some cmd
    rw [hsegs', lookupA_split hlt]
    have : aseg ++ [cmd] = aseg ++ cmd :: [] := rfl
    rw [this]
    exact recordAt_boundary aseg cmd []
  have hdecold : ∀ off₀ c₀, decodeAt s.segs off₀ = some c₀ →
      decodeAt (s.setMid k v).segs off₀ = some c₀ := by
    intro off₀ c₀ h
    rw [hmid]
    exact decodeAt_appendTo_of_some _ _ h
  have hidx : (s.setMid k v).index = ainsert k off s.index := by
    rw [hmid]
  have hagree : ∀ x, lookupA x (s.setMid k v).index =
      lookupA x (replayAll (s.setMid k v).segs) := by
    intro x
    have hrep : replayAll (s.setMid k v).segs =
        ainsert k off (replayAll s.segs) := by
      rw [hmid]
      show replayAll (appendTo s.currentGen cmd s.segs) = _
      rw [hsegs]
      rw [replayAll_appendTo cmd hlt]
    rw [hidx, hrep]
    by_cases hx : x = k
    · subst hx
      rw [lookupA_ainsert_self, lookupA_ainsert_self]
    · rw [lookupA_ainsert_ne _ _ hx, lookupA_ainsert_ne _ _ hx]
      exact hWF.agree x
  refine ⟨⟨?_, ?_, ?_, ?_, hagree⟩, ?_, ?_, ?_⟩
  · exact ⟨init, aseg ++ [cmd], by rw [hsegs']; rfl, hlt⟩
  · have : (s.setMid k v).segs.map Prod.fst = s.segs.map Prod.fst := by
      rw [hmid]
      exact appendTo_map_fst _ _ _
    rw [this]
    exact hWF.sorted
  · rw [hidx]
    exact nodup_ainsert _ _ hWF.nodupKeys
  · intro e he
    rw [hidx] at he
    rcases mem_ainsert he with heq | hmem
    · subst heq
      exact ⟨v, hdecnew⟩
    · obtain ⟨v', hv'⟩ := hWF.pointing e hmem
      exact ⟨v', hdecold _ _ hv'⟩
  · intro x
    by_cases hx : x = k
    · rw [if_pos hx, hx]
      have hlk : lookupA k (s.setMid k v).index = some off := by
        rw [hidx]
        exact lookupA_ainsert_self _ _ _
      exact mapping_of_lookup_some hlk hdecnew
    · rw [if_neg hx]
      have hlk : lookupA x (s.setMid k v).index = lookupA x s.index := by
        rw [hidx]
        exact lookupA_ainsert_ne _ _ hx
      cases hcase : lookupA x s.index with
      | none =>
        rw [mapping_of_lookup_none (hlk.trans hcase), mapping_of_lookup_none hcase]
      | some off₂ =>
        obtain ⟨v₂, hv₂⟩ := hWF.pointing (x, off₂) (lookupA_mem hcase)
        rw [mapping_of_lookup_some (hlk.trans hcase) (hdecold _ _ hv₂),
          mapping_of_lookup_some hcase hv₂]
  · rw [hmid]
  · rw [hmid]

/-! ## Preservation: `removeMid` -/

theorem WF_removeMid {s : KvStore} (k : String) (off : CommandOffset) (hWF : WF s) :
    WF (s.removeMid k off) ∧
    (∀ x, mapping (s.removeMid k off) x = if x = k then none else mapping s x) ∧
    (s.removeMid k off).uncompacted = s.uncompacted + off.len ∧
    (s.removeMid k off).currentGen = s.currentGen := by
  obtain ⟨init, aseg, hsegs, hlt⟩ := hWF.split
  set cmd := Command.remove k with hcmd
  have hsegs' : (s.removeMid k off).segs = init ++ [(s.currentGen, aseg ++ [cmd])] := by
    show appendTo s.currentGen cmd s.segs = _
    rw [hsegs]
    exact appendTo_split cmd hlt
  have hdecold : ∀ off₀ c₀, decodeAt s.segs off₀ = some c₀ →
      decodeAt (s.removeMid k off).segs off₀ = some c₀ := by
    intro off₀ c₀ h
    exact decodeAt_appendTo_of_some _ _ h
  have hidx : (s.removeMid k off).index = aerase k s.index := rfl
  have hagree : ∀ x, lookupA x (s.removeMid k off).index =
      lookupA x (replayAll (s.removeMid k off).segs) := by
    intro x
    have hrep : replayAll (s.removeMid k off).segs =
        aerase k (replayAll s.segs) := by
      show replayAll (appendTo s.currentGen cmd s.segs) = _
      rw [hsegs]
      rw [replayAll_appendTo cmd hlt]
    rw [hidx, hrep]
    by_cases hx : x = k
    · rw [hx]
      rw [lookupA_aerase_self _ _ hWF.nodupKeys,
        lookupA_aerase_self _ _ (replayAll_nodup s.segs)]
    · rw [lookupA_aerase_ne _ hx, lookupA_aerase_ne _ hx]
      exact hWF.agree x
  refine ⟨⟨?_, ?_, ?_, ?_, hagree⟩, ?_, rfl, rfl⟩
  · exact ⟨init, aseg ++ [cmd], by rw [hsegs']; rfl, hlt⟩
  · have : (s.removeMid k off).segs.map Prod.fst = s.segs.map Prod.fst := by
      show (appendTo s.currentGen cmd s.segs).map Prod.fst = _
      exact appendTo_map_fst _ _ _
    rw [this]
    exact hWF.sorted
  · rw [hidx]
    exact nodup_aerase _ hWF.nodupKeys
  · intro e he
    rw [hidx] at he
    obtain ⟨v', hv'⟩ := hWF.pointing e (mem_aerase he)
    exact ⟨v', hdecold _ _ hv'⟩
  · intro x
    by_cases hx : x = k
    · rw [if_pos hx, hx]
      have hlk : lookupA k (s.removeMid k off).index = none := by
        rw [hidx]
        exact lookupA_aerase_self _ _ hWF.nodupKeys
      exact mapping_of_lookup_none hlk
    · rw [if_neg hx]
      have hlk : lookupA x (s.removeMid k off).index = lookupA x s.index := by
        rw [hidx]
        exact lookupA_aerase_ne _ hx
      cases hcase : lookupA x s.index with
      | none =>
        rw [mapping_of_lookup_none (hlk.trans hcase), mapping_of_lookup_none hcase]
      | some off₂ =>
        obtain ⟨v₂, hv₂⟩ := hWF.pointing (x, off₂) (lookupA_mem hcase)
        rw [mapping_of_lookup_some (hlk.trans hcase) (hdecold _ _ hv₂),
          mapping_of_lookup_some hcase hv₂]

/-! ## Preservation: `compact` -/

theorem WF_compact {s : KvStore} (hWF : WF s) :
    s.compact = .ok s.compactResult ∧ WF s.compactResult ∧
    ∀ x, mapping s.compactResult x = mapping s x := by
  obtain ⟨init, aseg, hsegs, hlt⟩ := hWF.split
  have hptsome : ∀ e ∈ s.index, (decodeAt s.segs e.2).isSome := by
    intro e he
    obtain ⟨v, hv⟩ := hWF.pointing e he
    rw [hv]
    rfl
  have hloop := compactLoop_eq s.segs (s.currentGen + 1) s.index 0 hptsome
  have hsegs2 : s.compactResult.segs =
      [(s.currentGen + 1, liveCmds s.segs s.index), (s.currentGen + 2, [])] := rfl
  have hidx2 : s.compactResult.index = rewriteIdx (s.currentGen + 1) s.index 0 := rfl
  have hcg2 : s.compactResult.currentGen = s.currentGen + 2 := rfl
  have hle : ∀ p ∈ s.segs, p.1 ≤ s.currentGen := by
    intro p hp
    rw [hsegs] at hp
    rcases List.mem_append.mp hp with h1 | h2
    · exact (hlt p h1).le
    · rw [List.mem_singleton.mp h2]
  have hfilter : (s.segs ++ [(s.currentGen + 1, liveCmds s.segs s.index),
      (s.currentGen + 2, [])]).filter (fun p => ¬ p.1 ≤ s.currentGen) =
      [(s.currentGen + 1, liveCmds s.segs s.index), (s.currentGen + 2, [])] := by
    rw [List.filter_append]
    have h1 : s.segs.filter (fun p => ¬ p.1 ≤ s.currentGen) = [] := by
      rw [List.filter_eq_nil]
      intro a ha
      simp [hle a ha]
    have h2 : List.filter (fun p => ¬ p.1 ≤ s.currentGen)
        [(s.currentGen + 1, liveCmds s.segs s.index), (s.currentGen + 2, [])] =
        [(s.currentGen + 1, liveCmds s.segs s.index), (s.currentGen + 2, [])] := by
      have ha : ¬ s.currentGen + 1 ≤ s.currentGen := by omega
      have hb : ¬ s.currentGen + 2 ≤ s.currentGen := by omega
      simp [List.filter, ha, hb]
    rw [h1, h2]
    rfl
  have hcompact : s.compact = .ok s.compactResult := by
    unfold KvStore.compact
    rw [hloop]
    show Except.ok _ = _
    rw [hfilter]
    rfl
  have hrep : replayAll s.compactResult.segs = s.compactResult.index := by
    rw [hsegs2, hidx2]
    show load_index (s.currentGen + 2) []
      (load_index (s.currentGen + 1) (liveCmds s.segs s.index) (replayAll [])) = _
    rw [replayAll_nil]
    show load_index (s.currentGen + 1) (liveCmds s.segs s.index) [] = _
    unfold load_index
    have := replay_rewriteIdx s.segs (s.currentGen + 1) s.index 0 []
      hWF.nodupKeys hWF.pointing (fun e _ => rfl)
    rw [this]
    rfl
  refine ⟨hcompact, ⟨?_, ?_, ?_, ?_, ?_⟩, ?_⟩
  · refine ⟨[(s.currentGen + 1, liveCmds s.segs s.index)], [], ?_, ?_⟩
    · rw [hsegs2, hcg2]
      rfl
    · intro p hp
      rw [List.mem_singleton.mp hp, hcg2]
      omega
  · rw [hsegs2]
    show List.Chain' (· < ·) [s.currentGen + 1, s.currentGen + 2]
    simp [List.chain'_cons]
  · rw [hidx2, rewriteIdx_map_fst]
    exact hWF.nodupKeys
  · intro e he
    rw [hidx2] at he
    obtain ⟨hgen, v, hrec⟩ := rewriteIdx_pointing s.segs (s.currentGen + 1)
      s.index 0 [] hWF.pointing rfl e he
    refine ⟨v, ?_⟩
    unfold decodeAt
    rw [hgen, hsegs2]
    have hlk : lookupA (s.currentGen + 1)
        [(s.currentGen + 1, liveCmds s.segs s.index), (s.currentGen + 2, [])] =
        some (liveCmds s.segs s.index) := by
      rw [lookupA_cons, if_pos rfl]
    rw [hlk]
    simpa using hrec
  · intro x
    rw [hrep]
  · intro x
    obtain ⟨hn, hs⟩ := rewriteIdx_lookup s.segs (s.currentGen + 1) x s.index 0 []
      hWF.pointing rfl
    cases hcase : lookupA x s.index with
    | none =>
      have h1 : lookupA x s.compactResult.index = none := by
        rw [hidx2]
        exact hn hcase
      rw [mapping_of_lookup_none h1, mapping_of_lookup_none hcase]
    | some off =>
      obtain ⟨v, off', hdec, hlk, hgen, hlen, hrec⟩ := hs off hcase
      have hlk' : lookupA x s.compactResult.index = some off' := by
        rw [hidx2]
        exact hlk
      have hdec' : decodeAt s.compactResult.segs off' = some (Command.set x v) := by
        unfold decodeAt
        rw [hgen, hsegs2, lookupA_cons, if_pos rfl]
        simpa using hrec
      rw [mapping_of_lookup_some hlk' hdec', mapping_of_lookup_some hcase hdec]

/-! ## Preservation: reopening (`open` on an existing directory) -/

theorem decodeAt_append_of_some {segs : Segs} {off : CommandOffset} {c : Command}
    (more : Segs) (h : decodeAt segs off = some c) :
    decodeAt (segs ++ more) off = some c := by
  unfold decodeAt at h ⊢
  cases hseg : lookupA off.gen segs with
  | none => rw [hseg] at h; exact absurd h (by simp)
  | some seg =>
    rw [hseg] at h
    rw [lookupA_append_left _ hseg]
    exact h

theorem foldl_load_eq_replay (whole : Segs) :
    ∀ (segs : Segs) (idx : Index), (segs.map Prod.fst).Nodup →
    (∀ g ∈ segs.map Prod.fst, lookupA g whole = lookupA g segs) →
    (segs.map Prod.fst).foldl
        (fun i g => load_index g ((lookupA g whole).getD []) i) idx =
      segs.foldl (fun i p => load_index p.1 p.2 i) idx := by
  intro segs
  induction segs with
  | nil => intro idx _ _; rfl
  | cons hd rest ih =>
    intro idx hnd hlk
    obtain ⟨g, sg⟩ := hd
    simp only [List.map_cons, List.nodup_cons] at hnd
    have hg : lookupA g whole = some sg := by
      rw [hlk g (by simp), lookupA_cons, if_pos rfl]
    have hrest : ∀ g' ∈ rest.map Prod.fst, lookupA g' whole = lookupA g' rest := by
      intro g' hg'
      have hne : g ≠ g' := by
        rintro rfl
        exact hnd.1 hg'
      rw [hlk g' (by simp [hg']), lookupA_cons, if_neg hne]
    show (rest.map Prod.fst).foldl _ (load_index g ((lookupA g whole).getD []) idx) = _
    rw [hg]
    exact ih _ hnd.2 hrest

theorem nodup_of_chain'_lt {l : List Nat} (h : List.Chain' (· < ·) l) : l.Nodup :=
  (List.chain'_iff_pairwise.mp h).imp Nat.ne_of_lt

theorem WF_openFrom {s : KvStore} (hWF : WF s) :
    WF (KvStore.openFrom s.segs) ∧
    (∀ x, mapping (KvStore.openFrom s.segs) x = mapping s x) := by
  obtain ⟨init, aseg, hsegs, hlt⟩ := hWF.split
  have hg : generations s.segs = s.segs.map Prod.fst := by
    unfold generations
    exact sortGens_eq_self hWF.sorted
  have hnodupG : (s.segs.map Prod.fst).Nodup := nodup_of_chain'_lt hWF.sorted
  have hmapfst : s.segs.map Prod.fst = init.map Prod.fst ++ [s.currentGen] := by
    rw [hsegs]
    simp
  have hlast : (generations s.segs).getLast?.getD 0 = s.currentGen := by
    rw [hg, hmapfst, List.getLast?_concat]
    rfl
  have hcg : (KvStore.openFrom s.segs).currentGen = s.currentGen + 1 := by
    show (generations s.segs).getLast?.getD 0 + 1 = _
    rw [hlast]
  have hsegs' : (KvStore.openFrom s.segs).segs =
      s.segs ++ [(s.currentGen + 1, [])] := by
    show s.segs ++ [((generations s.segs).getLast?.getD 0 + 1, [])] = _
    rw [hlast]
  have hidx : (KvStore.openFrom s.segs).index = replayAll s.segs := by
    show (generations s.segs).foldl
      (fun idx g => load_index g ((lookupA g s.segs).getD []) idx) [] = _
    rw [hg]
    exact foldl_load_eq_replay s.segs s.segs [] hnodupG (fun g _ => rfl)
  have hle : ∀ p ∈ s.segs, p.1 ≤ s.currentGen := by
    intro p hp
    rw [hsegs] at hp
    rcases List.mem_append.mp hp with h1 | h2
    · exact (hlt p h1).le
    · rw [List.mem_singleton.mp h2]
  have hrepnew : replayAll (KvStore.openFrom s.segs).segs = replayAll s.segs := by
    rw [hsegs', replayAll_concat]
    rfl
  have hlkidx : ∀ x, lookupA x (KvStore.openFrom s.segs).index = lookupA x s.index := by
    intro x
    rw [hidx, ← hWF.agree x]
  have hdecnew : ∀ off c, decodeAt s.segs off = some c →
      decodeAt (KvStore.openFrom s.segs).segs off = some c := by
    intro off c h
    rw [hsegs']
    exact decodeAt_append_of_some _ h
  refine ⟨⟨?_, ?_, ?_, ?_, ?_⟩, ?_⟩
  · refine ⟨s.segs, [], by rw [hsegs', hcg], ?_⟩
    intro p hp
    rw [hcg]
    have := hle p hp
    omega
  · have : (KvStore.openFrom s.segs).segs.map Prod.fst =
        s.segs.map Prod.fst ++ [s.currentGen + 1] := by
      rw [hsegs']
      simp
    rw [this]
    rw [List.chain'_append]
    refine ⟨hWF.sorted, by simp, ?_⟩
    intro x hx y hy
    rw [hmapfst, List.getLast?_concat] at hx
    simp only [Option.mem_def, Option.some.injEq] at hx
    simp only [List.head?_cons, Option.mem_def, Option.some.injEq] at hy
    omega
  · rw [hidx]
    exact replayAll_nodup s.segs
  · intro e he
    rw [hidx] at he
    have hlk : lookupA e.1 (replayAll s.segs) = some e.2 := by
      have : ((e.1, e.2) : String × CommandOffset) ∈ replayAll s.segs := he
      exact mem_lookupA this (replayAll_nodup s.segs)
    have hlkold : lookupA e.1 s.index = some e.2 := by
      rw [hWF.agree e.1]
      exact hlk
    obtain ⟨v, hv⟩ := hWF.pointing e (lookupA_mem hlkold)
    exact ⟨v, hdecnew _ _ hv⟩
  · intro x
    rw [hidx, hrepnew]
  · intro x
    cases hcase : lookupA x s.index with
    | none =>
      rw [mapping_of_lookup_none ((hlkidx x).trans hcase), mapping_of_lookup_none hcase]
    | some off =>
      obtain ⟨v, hv⟩ := hWF.pointing (x, off) (lookupA_mem hcase)
      rw [mapping_of_lookup_some ((hlkidx x).trans hcase) (hdecnew _ _ hv),
        mapping_of_lookup_some hcase hv]

/-! ## Top-level operations on well-formed states -/

theorem decodeAt_some_elim {segs : Segs} {off : CommandOffset} {c : Command}
    (h : decodeAt segs off = some c) :
    ∃ seg, lookupA off.gen segs = some seg ∧ recordAt seg off.pos off.len = some c := by
  unfold decodeAt at h
  cases hseg : lookupA off.gen segs with
  | none =>
    rw [hseg] at h
    exact absurd h (by simp)
  | some seg =>
    rw [hseg] at h
    exact ⟨seg, rfl, h⟩

theorem get_eq_mapping {s : KvStore} (hWF : WF s) (x : String) :
    s.get x = .ok (mapping s x) := by
  cases hcase : lookupA x s.index with
  | none =>
    rw [mapping_of_lookup_none hcase]
    simp only [KvStore.get, hcase]
  | some off =>
    obtain ⟨v, hv0⟩ := hWF.pointing (x, off) (lookupA_mem hcase)
    have hv : decodeAt s.segs off = some (Command.set x v) := hv0
    rw [mapping_of_lookup_some hcase hv]
    obtain ⟨seg, hseg, hrec⟩ := decodeAt_some_elim hv
    have hin : ¬ segLen seg - off.pos < off.len := by
      have := recordAt_le_segLen hrec
      omega
    simp only [KvStore.get, hcase, hseg, if_neg hin, hrec]

theorem set_ok {s : KvStore} (k v : String) (hWF : WF s) :
    ∃ t, s.set k v = .ok t ∧ WF t ∧
      (∀ x, mapping t x = if x = k then some v else mapping s x) ∧
      t.uncompacted = s.uncompacted + ((lookupA k s.index).map CommandOffset.len).getD 0 := by
  obtain ⟨hWFmid, hmapmid, huncmid, _⟩ := WF_setMid k v hWF
  by_cases hth : COMPACTION_THRESHOLD ≤ (s.setMid k v).uncompacted
  · obtain ⟨hc, hWFc, hmapc⟩ := WF_compact hWFmid
    refine ⟨(s.setMid k v).compactResult, ?_, hWFc, ?_, ?_⟩
    · unfold KvStore.set
      rw [if_pos hth]
      exact hc
    · intro x
      rw [hmapc x, hmapmid x]
    · show (s.setMid k v).uncompacted = _
      exact huncmid
  · refine ⟨s.setMid k v, ?_, hWFmid, hmapmid, huncmid⟩
    unfold KvStore.set
    rw [if_neg hth]

theorem remove_none {s : KvStore} {k : String} (h : lookupA k s.index = none) :
    s.remove k = .error KvsError.keyNotFound := by
  unfold KvStore.remove
  rw [h]

theorem remove_ok {s : KvStore} {k : String} {off : CommandOffset} (hWF : WF s)
    (h : lookupA k s.index = some off) :
    ∃ t, s.remove k = .ok t ∧ WF t ∧
      (∀ x, mapping t x = if x = k then none else mapping s x) ∧
      t.uncompacted = s.uncompacted + off.len := by
  obtain ⟨hWFmid, hmapmid, huncmid, _⟩ := WF_removeMid k off hWF
  by_cases hth : COMPACTION_THRESHOLD ≤ (s.removeMid k off).uncompacted
  · obtain ⟨hc, hWFc, hmapc⟩ := WF_compact hWFmid
    refine ⟨(s.removeMid k off).compactResult, ?_, hWFc, ?_, ?_⟩
    · unfold KvStore.remove
      rw [h]
      show (if COMPACTION_THRESHOLD ≤ (s.removeMid k off).uncompacted
        then (s.removeMid k off).compact else .ok (s.removeMid k off)) = _
      rw [if_pos hth]
      exact hc
    · intro x
      rw [hmapc x, hmapmid x]
    · show (s.removeMid k off).uncompacted = _
      exact huncmid
  · refine ⟨s.removeMid k off, ?_, hWFmid, hmapmid, huncmid⟩
    unfold KvStore.remove
    rw [h]
    show (if COMPACTION_THRESHOLD ≤ (s.removeMid k off).uncompacted
      then (s.removeMid k off).compact else .ok (s.removeMid k off)) = _
    rw [if_neg hth]

theorem WF_open0 : WF KvStore.open0 := by
  refine ⟨⟨[], [], rfl, by simp⟩, ?_, ?_, ?_, ?_⟩
  · show List.Chain' (· < ·) [1]
    simp
  · show (([] : Index).map Prod.fst).Nodup
    simp
  · intro e he
    have h0 : KvStore.open0.index = ([] : Index) := rfl
    rw [h0] at he
    exact absurd he (List.not_mem_nil e)
  · intro x
    rfl

/-! ## The execution invariant -/

theorem WF_exec1 {s : KvStore} (op : Op) (hWF : WF s) : WF (exec1 s op) := by
  cases op with
  | set k v =>
    obtain ⟨t, heq, hWFt, _, _⟩ := set_ok k v hWF
    simp only [exec1, heq]
    exact hWFt
  | remove k =>
    cases hcase : lookupA k s.index with
    | none =>
      simp only [exec1, remove_none hcase]
      exact hWF
    | some off =>
      obtain ⟨t, heq, hWFt, _, _⟩ := remove_ok hWF hcase
      simp only [exec1, heq]
      exact hWFt
  | compact =>
    obtain ⟨heq, hWFt, _⟩ := WF_compact hWF
    simp only [exec1, heq]
    exact hWFt

theorem execSeq_cons (s : KvStore) (op : Op) (ops : List Op) :
    execSeq s (op :: ops) = execSeq (exec1 s op) ops := rfl

theorem execSeq_append (s : KvStore) (l₁ l₂ : List Op) :
    execSeq s (l₁ ++ l₂) = execSeq (execSeq s l₁) l₂ := by
  simp [execSeq, List.foldl_append]

theorem WF_execSeq (ops : List Op) : ∀ {s : KvStore}, WF s → WF (execSeq s ops) := by
  induction ops with
  | nil => exact fun h => h
  | cons op rest ih =>
    intro s hWF
    rw [execSeq_cons]
    exact ih (WF_exec1 op hWF)

theorem uncompacted_exec1 {s : KvStore} (op : Op) (hWF : WF s) :
    (exec1 s op).uncompacted = s.uncompacted + displacedLen s op := by
  cases op with
  | set k v =>
    obtain ⟨t, heq, _, _, hunc⟩ := set_ok k v hWF
    simp only [exec1, heq]
    exact hunc
  | remove k =>
    cases hcase : lookupA k s.index with
    | none =>
      simp only [exec1, remove_none hcase, displacedLen, hcase]
      rfl
    | some off =>
      obtain ⟨t, heq, _, _, hunc⟩ := remove_ok hWF hcase
      simp only [exec1, heq, displacedLen, hcase]
      exact hunc
  | compact =>
    obtain ⟨heq, _, _⟩ := WF_compact hWF
    simp only [exec1, heq, displacedLen]
    rfl

theorem uncompacted_execSeq (ops : List Op) : ∀ {s : KvStore}, WF s →
    (execSeq s ops).uncompacted = s.uncompacted + displacedSum s ops := by
  induction ops with
  | nil =>
    intro s _
    simp [execSeq, displacedSum]
  | cons op rest ih =>
    intro s hWF
    rw [execSeq_cons]
    show (execSeq (exec1 s op) rest).uncompacted = _
    rw [ih (WF_exec1 op hWF), uncompacted_exec1 op hWF]
    show s.uncompacted + displacedLen s op + displacedSum (exec1 s op) rest =
      s.uncompacted + (displacedLen s op + displacedSum (exec1 s op) rest)
    omega

theorem mapping_compacts (n : Nat) : ∀ {s : KvStore}, WF s →
    WF (execSeq s (List.replicate n Op.compact)) ∧
    ∀ x, mapping (execSeq s (List.replicate n Op.compact)) x = mapping s x := by
  induction n with
  | zero => exact fun h => ⟨h, fun _ => rfl⟩
  | succ m ih =>
    intro s hWF
    obtain ⟨heq, hWFt, hmap⟩ := WF_compact hWF
    have hstep : exec1 s Op.compact = s.compactResult := by
      simp only [exec1, heq]
    rw [List.replicate_succ, execSeq_cons, hstep]
    obtain ⟨h1, h2⟩ := ih hWFt
    exact ⟨h1, fun x => (h2 x).trans (hmap x)⟩

/-! ## Claims -/

/-- C1: Read-your-writes — for every sequence of engine operations and
every key `k` and value `v`, immediately after `set(k,v)` succeeds the
next `get(k)` returns `Some(v)`, and immediately after `remove(k)`
succeeds the next `get(k)` returns `None`. -/
theorem C1_read_your_writes (ops : List Op) (k v : String) (t : KvStore) :
    ((execSeq KvStore.open0 ops).set k v = .ok t → t.get k = .ok (some v)) ∧
    ((execSeq KvStore.open0 ops).remove k = .ok t → t.get k = .ok none) := by
  have hWF : WF (execSeq KvStore.open0 ops) := WF_execSeq ops WF_open0
  constructor
  · intro hset
    obtain ⟨t', heq, hWFt, hmap, _⟩ := set_ok k v hWF
    rw [heq] at hset
    injection hset with hset
    rw [← hset]
    rw [get_eq_mapping hWFt k, hmap k, if_pos rfl]
  · intro hrem
    cases hcase : lookupA k (execSeq KvStore.open0 ops).index with
    | none =>
      rw [remove_none hcase] at hrem
      exact absurd hrem (by simp)
    | some off =>
      obtain ⟨t', heq, hWFt, hmap, _⟩ := remove_ok hWF hcase
      rw [heq] at hrem
      injection hrem with hrem
      rw [← hrem]
      rw [get_eq_mapping hWFt k, hmap k, if_pos rfl]

/-- Witness for C1 at concrete inputs. -/
theorem C1_witness :
    KvStore.get (KvStore.open0.setMid "a" "1") "a" = .ok (some "1") ∧
    KvStore.get (execSeq KvStore.open0 [Op.set "a" "1", Op.remove "a"]) "a" =
      .ok none := by
  constructor
  · exact (C1_read_your_writes [] "a" "1" (KvStore.open0.setMid "a" "1")).1 (by rfl)
  · exact (C1_read_your_writes [Op.set "a" "1"] "a" "1"
      (execSeq KvStore.open0 [Op.set "a" "1", Op.remove "a"])).2 (by rfl)

/-- C2: Compaction is logically a no-op and reopen is equivalent — for
every operation sequence `S`, the mapping observable through `get` after
`S` equals the mapping after `S` followed by any number of `compact()`
calls, and also equals the mapping after replaying the on-disk segments
via `open` on the same directory. -/
theorem C2_compaction_and_reopen_noop (ops : List Op) (n : Nat) (k : String) :
    (execSeq KvStore.open0 (ops ++ List.replicate n Op.compact)).get k =
      (execSeq KvStore.open0 ops).get k ∧
    (KvStore.openFrom (execSeq KvStore.open0 ops).segs).get k =
      (execSeq KvStore.open0 ops).get k := by
  have hWF : WF (execSeq KvStore.open0 ops) := WF_execSeq ops WF_open0
  constructor
  · rw [execSeq_append]
    obtain ⟨h1, h2⟩ := mapping_compacts n hWF
    rw [get_eq_mapping h1 k, get_eq_mapping hWF k, h2 k]
  · obtain ⟨h1, h2⟩ := WF_openFrom hWF
    rw [get_eq_mapping h1 k, get_eq_mapping hWF k, h2 k]

/-- C3: evidence of the code bug — after two sets of the same key the
writer holds 31 stale bytes; a completed `compact()` (the state advanced
to generation 3) leaves `uncompacted` at 31, not 0: the source's
`compact` never resets the counter, though the spec's step 6 says it
must. -/
theorem C3_compact_does_not_reset_uncompacted :
    (execSeq KvStore.open0 [Op.set "a" "x", Op.set "a" "y"]).uncompacted = 31 ∧
    (execSeq KvStore.open0 [Op.set "a" "x", Op.set "a" "y", Op.compact]).currentGen = 3 ∧
    (execSeq KvStore.open0 [Op.set "a" "x", Op.set "a" "y", Op.compact]).uncompacted = 31 ∧
    (31 : Nat) ≠ 0 := by
  decide

/-- C4 counterexample: an index entry whose byte range decodes to a
`Remove` record makes `get` hit `unreachable!()` — the call panics
instead of returning a corruption error value. -/
theorem C4_counterexample :
    recordAt [Command.remove "a"] 0 22 = some (Command.remove "a") ∧
    KvStore.get ⟨[(1, [Command.remove "a"])], [("a", ⟨1, 0, 22⟩)], 1, 0⟩ "a" =
      GetResult.panicked ∧
    ∀ e : KvsError, GetResult.panicked ≠ GetResult.err e := by
  refine ⟨by decide, by decide, ?_⟩
  intro e h
  simp at h

/-- C4 amended: when the index-referenced byte range runs past the end of
the segment, `read_exact` fails first and `get` returns the I/O error;
when the range lies inside the segment but fails to decode as one
command, `get` returns the deserialization (corruption) error; when it
decodes to a `Remove` record, `get` panics via `unreachable!()` rather
than returning an error. -/
theorem C4_amended_corruption (s : KvStore) (k : String) (off : CommandOffset)
    (seg : Segment) (hlk : lookupA k s.index = some off)
    (hseg : lookupA off.gen s.segs = some seg) :
    (segLen seg - off.pos < off.len → s.get k = .err KvsError.io) ∧
    (off.len ≤ segLen seg - off.pos → recordAt seg off.pos off.len = none →
      s.get k = .err KvsError.serde) ∧
    (∀ k', recordAt seg off.pos off.len = some (Command.remove k') →
      s.get k = GetResult.panicked) := by
  refine ⟨?_, ?_, ?_⟩
  · intro hshort
    simp only [KvStore.get, hlk, hseg, if_pos hshort]
  · intro hin hrec
    have hneg : ¬ segLen seg - off.pos < off.len := by omega
    simp only [KvStore.get, hlk, hseg, if_neg hneg, hrec]
  · intro k' hrec
    have hneg : ¬ segLen seg - off.pos < off.len := by
      have := recordAt_le_segLen hrec
      omega
    simp only [KvStore.get, hlk, hseg, if_neg hneg, hrec]

/-- Witness for the amended C4 at concrete corrupt states: a range past
the end of an empty segment (I/O), an in-file range that is not one
record (deserialization), and a range holding a `Remove` record (panic). -/
theorem C4_amended_witness :
    KvStore.get ⟨[(1, [])], [("c", ⟨1, 0, 5⟩)], 1, 0⟩ "c" = .err KvsError.io ∧
    KvStore.get ⟨[(1, [Command.set "a" "1"])], [("c", ⟨1, 0, 5⟩)], 1, 0⟩ "c" =
      .err KvsError.serde ∧
    KvStore.get ⟨[(2, [Command.remove "b"])], [("b", ⟨2, 0, 22⟩)], 2, 0⟩ "b" =
      GetResult.panicked := by
  refine ⟨?_, ?_, ?_⟩
  · exact (C4_amended_corruption ⟨[(1, [])], [("c", ⟨1, 0, 5⟩)], 1, 0⟩
      "c" ⟨1, 0, 5⟩ [] (by decide) (by decide)).1 (by decide)
  · exact (C4_amended_corruption ⟨[(1, [Command.set "a" "1"])], [("c", ⟨1, 0, 5⟩)], 1, 0⟩
      "c" ⟨1, 0, 5⟩ [Command.set "a" "1"] (by decide) (by decide)).2.1
      (by decide) (by decide)
  · exact (C4_amended_corruption ⟨[(2, [Command.remove "b"])], [("b", ⟨2, 0, 22⟩)], 2, 0⟩
      "b" ⟨2, 0, 22⟩ [Command.remove "b"] (by decide) (by decide)).2.2 "b" (by decide)

/-- C5: Index well-formedness — in every reachable state (and after a
further reopen) every index entry's offset decodes to a `Set` command
whose key equals the index key. -/
theorem C5_index_points_to_matching_set (ops : List Op) (e : String × CommandOffset) :
    (e ∈ (execSeq KvStore.open0 ops).index →
      ∃ v, decodeAt (execSeq KvStore.open0 ops).segs e.2 = some (Command.set e.1 v)) ∧
    (e ∈ (KvStore.openFrom (execSeq KvStore.open0 ops).segs).index →
      ∃ v, decodeAt (KvStore.openFrom (execSeq KvStore.open0 ops).segs).segs e.2 =
        some (Command.set e.1 v)) := by
  have hWF : WF (execSeq KvStore.open0 ops) := WF_execSeq ops WF_open0
  exact ⟨hWF.pointing e, (WF_openFrom hWF).1.pointing e⟩

/-- Witness for C5 at a concrete reachable state. -/
theorem C5_witness :
    ∃ v, decodeAt (execSeq KvStore.open0 [Op.set "a" "1"]).segs ⟨1, 0, 31⟩ =
      some (Command.set "a" v) :=
  (C5_index_points_to_matching_set [Op.set "a" "1"] ("a", ⟨1, 0, 31⟩)).1 (by decide)

/-- C6 counterexample: after `set("a","x"); remove("a")` the counter is
31 (only the displaced `Set`'s bytes); the claim's accounting — the
superseded `Set` record (31 bytes) plus the `Remove` record written
(22 bytes) — demands 53. -/
theorem C6_counterexample :
    (execSeq KvStore.open0 [Op.set "a" "x", Op.remove "a"]).uncompacted = 31 ∧
    encLen (Command.set "a" "x") = 31 ∧ encLen (Command.remove "a") = 22 ∧
    (31 : Nat) ≠ 31 + 22 := by
  decide

/-- C6 amended: between operations, `uncompacted` equals the sum of the
byte lengths of the `Set` records displaced from the index since open —
by an overwriting `set` or by a `remove` — with tombstone bytes never
counted and no reset at compaction. -/
theorem C6_amended_uncompacted (ops : List Op) :
    (execSeq KvStore.open0 ops).uncompacted = displacedSum KvStore.open0 ops := by
  have h := uncompacted_execSeq ops WF_open0
  rw [h]
  show 0 + _ = _
  exact Nat.zero_add _

/-- C7: `remove` on an absent key fails with `KeyNotFound` before any
write: the state (segments, index, `uncompacted`) is untouched. -/
theorem C7_remove_absent_no_mutation (s : KvStore) (k : String)
    (h : lookupA k s.index = none) :
    s.remove k = .error KvsError.keyNotFound ∧ exec1 s (Op.remove k) = s := by
  refine ⟨remove_none h, ?_⟩
  simp only [exec1, remove_none h]

/-- Witness for C7 on the freshly opened store. -/
theorem C7_witness :
    KvStore.open0.remove "a" = .error KvsError.keyNotFound ∧
    exec1 KvStore.open0 (Op.remove "a") = KvStore.open0 :=
  C7_remove_absent_no_mutation KvStore.open0 "a" (by decide)

/-- C8: on `set`, a displaced prior offset of length `L` adds exactly `L`
to `uncompacted`, compaction runs during the set exactly when the updated
counter reaches `COMPACTION_THRESHOLD`, and the threshold is exactly
4194304 bytes. -/
theorem C8_set_displacement_and_threshold :
    COMPACTION_THRESHOLD = 4194304 ∧
    ∀ (s : KvStore) (k v : String),
      s.set k v = (if COMPACTION_THRESHOLD ≤ (s.setMid k v).uncompacted
        then (s.setMid k v).compact else .ok (s.setMid k v)) ∧
      ∀ off, lookupA k s.index = some off →
        (s.setMid k v).uncompacted = s.uncompacted + off.len := by
  refine ⟨rfl, fun s k v => ⟨rfl, ?_⟩⟩
  intro off hoff
  show s.uncompacted + ((lookupA k s.index).map CommandOffset.len).getD 0 = _
  rw [hoff]
  rfl

/-- Witness for C8 at a concrete state with a displaced offset. -/
theorem C8_witness :
    ((execSeq KvStore.open0 [Op.set "a" "1"]).setMid "a" "2").uncompacted =
      (execSeq KvStore.open0 [Op.set "a" "1"]).uncompacted + 31 :=
  (C8_set_displacement_and_threshold.2 (execSeq KvStore.open0 [Op.set "a" "1"])
    "a" "2").2 ⟨1, 0, 31⟩ (by decide)

/-- C9: a `Remove` record replayed for a key absent from the index is a
silent no-op (replay continues), while a live `remove` of an absent key
is a `KeyNotFound` error. -/
theorem C9_orphan_tombstone_replay (g pos : Nat) (rest : List Command) (idx : Index)
    (k : String) (s : KvStore) :
    (lookupA k idx = none →
      replayGo g pos (Command.remove k :: rest) idx =
        replayGo g (pos + encLen (Command.remove k)) rest idx) ∧
    (lookupA k s.index = none → s.remove k = .error KvsError.keyNotFound) := by
  constructor
  · intro h
    rw [replayGo_cons_remove, aerase_of_lookupA_none h]
  · exact remove_none

/-- Witness for C9: an orphan tombstone at the head of a segment replayed
into an empty index, and a live remove on the fresh store. -/
theorem C9_witness :
    replayGo 1 0 [Command.remove "a"] [] =
      replayGo 1 (0 + encLen (Command.remove "a")) [] [] ∧
    KvStore.open0.remove "a" = .error KvsError.keyNotFound := by
  constructor
  · exact (C9_orphan_tombstone_replay 1 0 [] [] "a" KvStore.open0).1 (by decide)
  · exact (C9_orphan_tombstone_replay 1 0 [] [] "a" KvStore.open0).2 (by decide)

/-- C10: no operation enforces non-empty keys or values: from every
reachable state, `set("", v)` and `set(k, "")` succeed and the following
`get` returns the stored (possibly empty) value. -/
theorem C10_empty_keys_and_values (ops : List Op) (k v : String) :
    (∃ t, (execSeq KvStore.open0 ops).set "" v = .ok t ∧ t.get "" = .ok (some v)) ∧
    (∃ t, (execSeq KvStore.open0 ops).set k "" = .ok t ∧ t.get k = .ok (some "")) := by
  have hWF : WF (execSeq KvStore.open0 ops) := WF_execSeq ops WF_open0
  constructor
  · obtain ⟨t, heq, hWFt, hmap, _⟩ := set_ok "" v hWF
    refine ⟨t, heq, ?_⟩
    rw [get_eq_mapping hWFt, hmap, if_pos rfl]
  · obtain ⟨t, heq, hWFt, hmap, _⟩ := set_ok k "" hWF
    refine ⟨t, heq, ?_⟩
    rw [get_eq_mapping hWFt, hmap, if_pos rfl]
